import Mathlib

/-!
Shallow embedding of `spin.py`, an Ising spin-glass simulator on a weighted
graph, together with theorems settling the specification's claims.

Modelling conventions:
* Python integers become `ℤ`; node indices become `ℕ`.
* The node dictionary `self.nodes` (keys `0 .. node_qty-1`, insertion order)
  becomes a `List Node` indexed by position; `nodes[i]` becomes
  `nodes.getD i dflt`.  Out-of-range indices raise `KeyError` in Python and
  are excluded by hypotheses in every theorem that depends on an index.
* Python floats (`T`, `random.random()`, `math.exp`) become real numbers:
  the spec states the acceptance rule over real `exp`.
* Randomness is made explicit: `random.choice((-1,1))` at node creation
  becomes a `ℕ → Bool` argument, and each loop iteration of `update` becomes
  a supplied trial `(n, r) : ℕ × ℝ` holding the `randint` draw and the
  `random.random()` draw.
* The only runtime failure reachable from the claims is the
  `ZeroDivisionError` raised by `2*E/T` when `T = 0`; fallible code therefore
  returns `Except Unit`.
-/

namespace SpinPy

/-- `class Node` of `spin.py`: a spin (`+1`/`-1`), a field weight `h`,
and the list `Jn` of (neighbour index, edge weight) pairs. -/
structure Node where
  spin : ℤ
  h : ℤ
  Jn : List (ℕ × ℤ)
deriving Repr, DecidableEq

/-- Default node used by `List.getD`; every theorem that reads an index
supplies an in-range hypothesis, so this value is never observable there. -/
def dflt : Node := ⟨1, 0, []⟩

instance : Inhabited Node := ⟨dflt⟩

/-- `Node.seth`: sets the field weight (overwrites). -/
def Node.seth (nd : Node) (w : ℤ) : Node := { nd with h := w }

/-- `Node.setJn`: appends one (neighbour, weight) pair to `Jn`. -/
def Node.setJn (nd : Node) (e : ℕ × ℤ) : Node := { nd with Jn := nd.Jn ++ [e] }

/-- `Node.switchSpin`: negates the spin. -/
def Node.switchSpin (nd : Node) : Node := { nd with spin := -nd.spin }

/-- `Node.getE`: local energy.  Mirrors the source loop
`for i in self.getJn(): E += (h * spin) + (i[1] * spin * nodes[i[0]].spin)`,
returning `-E`.  Note the field term is accumulated once per entry of `Jn`. -/
def Node.getE (nd : Node) (nodes : List Node) : ℤ :=
  -(nd.Jn.foldl
      (fun E i => E + (nd.h * nd.spin + i.2 * nd.spin * (nodes.getD i.1 dflt).spin)) 0)

/-- `class Model`: the node table, the whole-model edge list `Js`
(triples `(a, b, w)` with `a ≠ b`), and the field list `hs`. -/
structure Model where
  nodes : List Node
  Js : List (ℕ × ℕ × ℤ)
  hs : List (ℕ × ℤ)
deriving Repr, DecidableEq

/-- One `setJn` performed on the node stored at index `i` of the table. -/
def setJnAt (nodes : List Node) (i : ℕ) (e : ℕ × ℤ) : List Node :=
  nodes.set i ((nodes.getD i dflt).setJn e)

/-- One `seth` performed on the node stored at index `i` of the table. -/
def sethAt (nodes : List Node) (i : ℕ) (w : ℤ) : List Node :=
  nodes.set i ((nodes.getD i dflt).seth w)

/-- One iteration of the `for w in weights` loop of `Model.__init__`:
an `a ≠ b` triple couples both endpoints and is recorded in `Js`;
an `a = b` triple overwrites the field of node `a` and is recorded in `hs`. -/
def applyWeight (m : Model) (w : ℕ × ℕ × ℤ) : Model :=
  if w.1 ≠ w.2.1 then
    { m with
        nodes := setJnAt (setJnAt m.nodes w.1 (w.2.1, w.2.2)) w.2.1 (w.1, w.2.2),
        Js := m.Js ++ [(w.1, w.2.1, w.2.2)] }
  else
    { m with
        nodes := sethAt m.nodes w.1 w.2.2,
        hs := m.hs ++ [(w.1, w.2.2)] }

/-- A freshly constructed node: randomly chosen spin (the draw of
`random.choice((-1,1))` is the Boolean `init n`), `h = 0`, empty `Jn`. -/
def initNode (init : ℕ → Bool) (n : ℕ) : Node :=
  { spin := if init n then 1 else -1, h := 0, Jn := [] }

/-- `Model.__init__`: create `node_qty` nodes, then process the weight
triples in input order. -/
def mkModel (node_qty : ℕ) (weights : List (ℕ × ℕ × ℤ)) (init : ℕ → Bool) :
    Model :=
  weights.foldl applyWeight
    { nodes := (List.range node_qty).map (initNode init), Js := [], hs := [] }

open Classical

/-- One iteration of the loop in `update` (`spin.py` lines 129-135): the
trial `tr = (n, r)` carries the drawn node index and the uniform draw.
`E > 0` flips unconditionally; otherwise Python evaluates
`random.random() < math.exp(2*E/T)`, which raises `ZeroDivisionError`
when `T = 0` and flips exactly when `r < exp(2*E/T)` otherwise.
(The source guard `E <= 0` is the negation of `E > 0`, hence the `else`.)
Real-valued comparisons force this definition to be noncomputable. -/
noncomputable def updateStep (T : ℝ) (nodes : List Node) (tr : ℕ × ℝ) :
    Except Unit (List Node) :=
  if 0 < (nodes.getD tr.1 dflt).getE nodes then
    .ok (nodes.set tr.1 ((nodes.getD tr.1 dflt).switchSpin))
  else if T = 0 then
    .error ()
  else if tr.2 < Real.exp (2 * ((nodes.getD tr.1 dflt).getE nodes : ℝ) / T) then
    .ok (nodes.set tr.1 ((nodes.getD tr.1 dflt).switchSpin))
  else
    .ok nodes

/-- `update(model, nodes, node_qty, T)`: one sweep.  The Python loop runs
`node_qty` times; here the supplied trial list has one entry per iteration
(so a sweep of a model with `node_qty = 0` has the empty trial list). -/
noncomputable def update (T : ℝ) (nodes : List Node) (trials : List (ℕ × ℝ)) :
    Except Unit (List Node) :=
  trials.foldlM (updateStep T) nodes

/-- The `for i in range(I)` loop of `modelE`: the sweeps run in sequence,
each observing the node table left by the previous one. -/
noncomputable def runSweeps (T : ℝ) (nodes : List Node)
    (sl : List (List (ℕ × ℝ))) : Except Unit (List Node) :=
  sl.foldlM (update T) nodes

/-- The energy accumulation of `modelE` after the sweeps: `mE` starts at 0,
accumulates `spin[a]*spin[b]*w` over `Js`, then `spin[n]*w` over `hs`,
and the function returns `-mE`. -/
def totalE (model : Model) (nodes : List Node) : ℤ :=
  -(model.hs.foldl
      (fun mE w => mE + (nodes.getD w.1 dflt).spin * w.2)
      (model.Js.foldl
        (fun mE w =>
          mE + (nodes.getD w.1 dflt).spin * (nodes.getD w.2.1 dflt).spin * w.2.2)
        0))

/-- `modelE(model, nodes, node_qty, I, T)`: run the sweeps (the list `sl`
holds the trial draws of each of the `I` sweeps), then evaluate the total
energy on the final spins. -/
noncomputable def modelE (model : Model) (nodes : List Node) (T : ℝ)
    (sl : List (List (ℕ × ℝ))) : Except Unit ℤ :=
  (runSweeps T nodes sl).map (totalE model)

/-- `modelSpin(model, nodes)`: collect the spins in node order, then render
each as `'+'` if positive and `'-'` otherwise.  A pure read. -/
def modelSpin (nodes : List Node) : List Char :=
  (nodes.map Node.spin).map (fun x => if 0 < x then '+' else '-')

/-! ### Specification-side formulas

These follow the spec's words and are compared with the source-derived
definitions above in the refinement theorems. -/

/-- Modelled from the spec: `localEnergy(nodeTable)` as a sum — "for each
(neighbor, weight) pair in `couplings`, accumulates
`field*spin + weight*spin*nodeTable[neighbor].spin`; returns the negation
of the accumulated sum." -/
def localEnergySpec (nd : Node) (nodes : List Node) : ℤ :=
  -((nd.Jn.map
      (fun i => nd.h * nd.spin + i.2 * nd.spin * (nodes.getD i.1 dflt).spin)).sum)

/-- Modelled from the spec: total energy as a sum — "sum over `edges` of
`spin[a]*spin[b]*w`, plus sum over `fields` of `spin[node]*w`; negate the
combined sum." -/
def totalESpec (model : Model) (nodes : List Node) : ℤ :=
  -(((model.Js.map
        (fun w => (nodes.getD w.1 dflt).spin * (nodes.getD w.2.1 dflt).spin * w.2.2)).sum)
    + ((model.hs.map (fun w => (nodes.getD w.1 dflt).spin * w.2)).sum))

/-- The (neighbour, weight) entries one weight triple contributes to node
`a`'s coupling list: nothing for a self-loop; `(b, w)` when `a` is the first
endpoint of `(a, b, w)`; `(b, w)` when `a` is the second endpoint of
`(b, a, w)`. -/
def entriesFor (a : ℕ) (t : ℕ × ℕ × ℤ) : List (ℕ × ℤ) :=
  if t.1 = t.2.1 then []
  else
    (if t.1 = a then [(t.2.1, t.2.2)] else []) ++
      (if t.2.1 = a then [(t.1, t.2.2)] else [])

/-- Node `a`'s coupling list as accumulated over the weight triples in input
order (append-only, duplicates kept). -/
def jnOf (a : ℕ) : List (ℕ × ℕ × ℤ) → List (ℕ × ℤ)
  | [] => []
  | t :: ts => entriesFor a t ++ jnOf a ts

/-- Node `a`'s field weight after processing the weight triples, starting
from `cur`: each self-loop triple on `a` overwrites the current value. -/
def fieldOf (a : ℕ) (cur : ℤ) : List (ℕ × ℕ × ℤ) → ℤ
  | [] => cur
  | t :: ts => fieldOf a (if t.1 = t.2.1 ∧ t.1 = a then t.2.2 else cur) ts

/-- The spin invariant: every node of the table carries spin `+1` or `-1`. -/
def validSpins (nodes : List Node) : Prop :=
  ∀ nd ∈ nodes, nd.spin = 1 ∨ nd.spin = -1

/-! ### List indexing helpers -/

lemma getD_set_self {α : Type} (l : List α) (i : ℕ) (x d : α)
    (h : i < l.length) : (l.set i x).getD i d = x := by
  simp [List.getD_eq_getElem?_getD, List.getElem?_set, h]

lemma getD_set_ne {α : Type} (l : List α) (i j : ℕ) (x d : α)
    (h : i ≠ j) : (l.set i x).getD j d = l.getD j d := by
  simp [List.getD_eq_getElem?_getD, List.getElem?_set, h]

lemma getD_map_range {α : Type} (f : ℕ → α) (q a : ℕ) (d : α) (h : a < q) :
    ((List.range q).map f).getD a d = f a := by
  rw [List.getD_eq_getElem _ _ (by simpa using h)]
  simp [List.getElem_map, List.getElem_range]

/-! ### Characterization of model construction -/

lemma applyWeight_length (m : Model) (t : ℕ × ℕ × ℤ) :
    (applyWeight m t).nodes.length = m.nodes.length := by
  unfold applyWeight setJnAt sethAt
  split <;> simp [List.length_set]

lemma applyWeight_node (m : Model) (t : ℕ × ℕ × ℤ) (a : ℕ)
    (ha : a < m.nodes.length) :
    (applyWeight m t).nodes.getD a dflt =
      { spin := (m.nodes.getD a dflt).spin,
        h := if t.1 = t.2.1 ∧ t.1 = a then t.2.2 else (m.nodes.getD a dflt).h,
        Jn := (m.nodes.getD a dflt).Jn ++ entriesFor a t } := by
  obtain ⟨x, y, w⟩ := t
  by_cases hst : x = y
  · unfold applyWeight
    rw [if_neg (by simp [hst])]
    simp only [sethAt]
    by_cases hxa : x = a
    · subst hxa
      rw [getD_set_self _ _ _ _ ha]
      simp [Node.seth, entriesFor, hst]
    · rw [getD_set_ne _ _ _ _ _ hxa]
      rw [show entriesFor a (x, y, w) = [] from by simp [entriesFor, hst]]
      rw [if_neg (fun hc => hxa hc.2), List.append_nil]
  · unfold applyWeight
    rw [if_pos (by simp [hst])]
    simp only [setJnAt]
    by_cases h1 : x = a
    · have h2 : ¬y = a := fun hh => hst (by rw [h1, hh])
      rw [getD_set_ne _ _ _ _ _ h2]
      subst h1
      rw [getD_set_self _ _ _ _ ha]
      simp [Node.setJn, entriesFor, hst, h2]
    · by_cases h2 : y = a
      · subst h2
        rw [getD_set_self _ _ _ _ (by simpa [List.length_set] using ha)]
        rw [getD_set_ne _ _ _ _ _ h1]
        simp [Node.setJn, entriesFor, hst, h1]
      · rw [getD_set_ne _ _ _ _ _ h2, getD_set_ne _ _ _ _ _ h1]
        simp [entriesFor, hst, h1, h2]

lemma foldl_applyWeight_length :
    ∀ (ws : List (ℕ × ℕ × ℤ)) (m : Model),
      (List.foldl applyWeight m ws).nodes.length = m.nodes.length := by
  intro ws
  induction ws with
  | nil => intro m; rfl
  | cons t ts ih => intro m; rw [List.foldl_cons, ih, applyWeight_length]

lemma foldl_applyWeight_node :
    ∀ (ws : List (ℕ × ℕ × ℤ)) (m : Model) (a : ℕ), a < m.nodes.length →
      (List.foldl applyWeight m ws).nodes.getD a dflt =
        { spin := (m.nodes.getD a dflt).spin,
          h := fieldOf a (m.nodes.getD a dflt).h ws,
          Jn := (m.nodes.getD a dflt).Jn ++ jnOf a ws } := by
  intro ws
  induction ws with
  | nil => intro m a ha; simp [fieldOf, jnOf]
  | cons t ts ih =>
    intro m a ha
    rw [List.foldl_cons,
      ih (applyWeight m t) a (by rw [applyWeight_length]; exact ha),
      applyWeight_node m t a ha]
    simp [fieldOf, jnOf, List.append_assoc]

lemma foldl_applyWeight_Js :
    ∀ (ws : List (ℕ × ℕ × ℤ)) (m : Model),
      (List.foldl applyWeight m ws).Js =
        m.Js ++ ws.filter (fun t => decide (t.1 ≠ t.2.1)) := by
  intro ws
  induction ws with
  | nil => intro m; simp
  | cons t ts ih =>
    intro m
    rw [List.foldl_cons, ih, List.filter_cons]
    by_cases hst : t.1 = t.2.1
    · rw [if_neg (by simp [hst])]
      unfold applyWeight
      rw [if_neg (by simp [hst])]
    · rw [if_pos (by simp [hst])]
      unfold applyWeight
      rw [if_pos (by simp [hst])]
      simp

lemma foldl_applyWeight_hs :
    ∀ (ws : List (ℕ × ℕ × ℤ)) (m : Model),
      (List.foldl applyWeight m ws).hs =
        m.hs ++ (ws.filter (fun t => decide (t.1 = t.2.1))).map
          (fun t => (t.1, t.2.2)) := by
  intro ws
  induction ws with
  | nil => intro m; simp
  | cons t ts ih =>
    intro m
    rw [List.foldl_cons, ih, List.filter_cons]
    by_cases hst : t.1 = t.2.1
    · rw [if_pos (by simp [hst])]
      unfold applyWeight
      rw [if_neg (by simp [hst])]
      simp
    · rw [if_neg (by simp [hst])]
      unfold applyWeight
      rw [if_pos (by simp [hst])]

lemma mkModel_length (q : ℕ) (ws : List (ℕ × ℕ × ℤ)) (init : ℕ → Bool) :
    (mkModel q ws init).nodes.length = q := by
  rw [mkModel, foldl_applyWeight_length]
  simp

lemma mkModel_node (q : ℕ) (ws : List (ℕ × ℕ × ℤ)) (init : ℕ → Bool)
    (a : ℕ) (ha : a < q) :
    (mkModel q ws init).nodes.getD a dflt =
      { spin := if init a then 1 else -1,
        h := fieldOf a 0 ws,
        Jn := jnOf a ws } := by
  rw [mkModel, foldl_applyWeight_node ws _ a (by simpa using ha),
    getD_map_range _ _ _ _ ha]
  simp [initNode]

lemma mkModel_Js (q : ℕ) (ws : List (ℕ × ℕ × ℤ)) (init : ℕ → Bool) :
    (mkModel q ws init).Js = ws.filter (fun t => decide (t.1 ≠ t.2.1)) := by
  rw [mkModel, foldl_applyWeight_Js]
  rfl

lemma mkModel_hs (q : ℕ) (ws : List (ℕ × ℕ × ℤ)) (init : ℕ → Bool) :
    (mkModel q ws init).hs =
      (ws.filter (fun t => decide (t.1 = t.2.1))).map (fun t => (t.1, t.2.2)) := by
  rw [mkModel, foldl_applyWeight_hs]
  rfl

lemma mem_jnOf_fst (a b : ℕ) (w : ℤ) :
    ∀ ws : List (ℕ × ℕ × ℤ), (a, b, w) ∈ ws → a ≠ b → (b, w) ∈ jnOf a ws := by
  intro ws
  induction ws with
  | nil => intro hmem; cases hmem
  | cons t ts ih =>
    intro hmem hab
    rw [jnOf]
    rcases List.mem_cons.mp hmem with heq | hmem2
    · subst heq
      apply List.mem_append_left
      simp [entriesFor, hab]
    · exact List.mem_append_right _ (ih hmem2 hab)

lemma mem_jnOf_snd (a b : ℕ) (w : ℤ) :
    ∀ ws : List (ℕ × ℕ × ℤ), (a, b, w) ∈ ws → a ≠ b → (a, w) ∈ jnOf b ws := by
  intro ws
  induction ws with
  | nil => intro hmem; cases hmem
  | cons t ts ih =>
    intro hmem hab
    rw [jnOf]
    rcases List.mem_cons.mp hmem with heq | hmem2
    · subst heq
      apply List.mem_append_left
      simp [entriesFor, hab, Ne.symm hab]
    · exact List.mem_append_right _ (ih hmem2 hab)

lemma fieldOf_append (a : ℕ) :
    ∀ (xs ys : List (ℕ × ℕ × ℤ)) (cur : ℤ),
      fieldOf a cur (xs ++ ys) = fieldOf a (fieldOf a cur xs) ys := by
  intro xs
  induction xs with
  | nil => intro ys cur; rfl
  | cons t ts ih => intro ys cur; rw [List.cons_append, fieldOf, fieldOf, ih]

lemma fieldOf_of_no_self (a : ℕ) :
    ∀ (ws : List (ℕ × ℕ × ℤ)) (cur : ℤ),
      (∀ t ∈ ws, ¬(t.1 = t.2.1 ∧ t.1 = a)) → fieldOf a cur ws = cur := by
  intro ws
  induction ws with
  | nil => intro cur _; rfl
  | cons t ts ih =>
    intro cur hno
    rw [fieldOf, if_neg (hno t (List.mem_cons_self t ts)),
      ih cur (fun u hu => hno u (List.mem_cons_of_mem t hu))]

/-! ### The spin invariant -/

lemma validSpins_getD (nodes : List Node) (i : ℕ) (h : validSpins nodes) :
    (nodes.getD i dflt).spin = 1 ∨ (nodes.getD i dflt).spin = -1 := by
  by_cases hi : i < nodes.length
  · rw [List.getD_eq_getElem _ _ hi]
    exact h _ (List.getElem_mem hi)
  · rw [List.getD_eq_default _ _ (le_of_not_lt hi)]
    left
    rfl

lemma validSpins_set (l : List Node) (i : ℕ) (x : Node)
    (h : validSpins l) (hx : x.spin = 1 ∨ x.spin = -1) :
    validSpins (l.set i x) := by
  intro nd hnd
  rcases List.mem_or_eq_of_mem_set hnd with hmem | hEq
  · exact h nd hmem
  · rw [hEq]; exact hx

lemma validSpins_init (q : ℕ) (init : ℕ → Bool) :
    validSpins ((List.range q).map (initNode init)) := by
  intro nd hnd
  rcases List.mem_map.mp hnd with ⟨n, _, rfl⟩
  by_cases hb : init n
  · left; simp [initNode, hb]
  · right; simp [initNode, hb]

lemma setJnAt_valid (nodes : List Node) (i : ℕ) (e : ℕ × ℤ)
    (h : validSpins nodes) : validSpins (setJnAt nodes i e) := by
  apply validSpins_set _ _ _ h
  simpa [Node.setJn] using validSpins_getD nodes i h

lemma sethAt_valid (nodes : List Node) (i : ℕ) (w : ℤ)
    (h : validSpins nodes) : validSpins (sethAt nodes i w) := by
  apply validSpins_set _ _ _ h
  simpa [Node.seth] using validSpins_getD nodes i h

lemma applyWeight_valid (m : Model) (t : ℕ × ℕ × ℤ)
    (h : validSpins m.nodes) : validSpins (applyWeight m t).nodes := by
  unfold applyWeight
  split
  · exact setJnAt_valid _ _ _ (setJnAt_valid _ _ _ h)
  · exact sethAt_valid _ _ _ h

lemma foldl_applyWeight_valid :
    ∀ (ws : List (ℕ × ℕ × ℤ)) (m : Model), validSpins m.nodes →
      validSpins (List.foldl applyWeight m ws).nodes := by
  intro ws
  induction ws with
  | nil => intro m h; exact h
  | cons t ts ih => intro m h; exact ih _ (applyWeight_valid _ _ h)

lemma mkModel_valid (q : ℕ) (ws : List (ℕ × ℕ × ℤ)) (init : ℕ → Bool) :
    validSpins (mkModel q ws init).nodes := by
  rw [mkModel]
  exact foldl_applyWeight_valid ws _ (validSpins_init q init)

/-! ### Behaviour of the update engine -/

lemma updateStep_pos (T : ℝ) (nodes : List Node) (n : ℕ) (r : ℝ)
    (hE : 0 < (nodes.getD n dflt).getE nodes) :
    updateStep T nodes (n, r) =
      .ok (nodes.set n ((nodes.getD n dflt).switchSpin)) := by
  unfold updateStep
  rw [if_pos hE]

lemma updateStep_nonpos_accept (T : ℝ) (nodes : List Node) (n : ℕ) (r : ℝ)
    (hT : T ≠ 0) (hE : ¬0 < (nodes.getD n dflt).getE nodes)
    (hr : r < Real.exp (2 * ((nodes.getD n dflt).getE nodes : ℝ) / T)) :
    updateStep T nodes (n, r) =
      .ok (nodes.set n ((nodes.getD n dflt).switchSpin)) := by
  unfold updateStep
  rw [if_neg hE, if_neg hT, if_pos hr]

lemma updateStep_nonpos_reject (T : ℝ) (nodes : List Node) (n : ℕ) (r : ℝ)
    (hT : T ≠ 0) (hE : ¬0 < (nodes.getD n dflt).getE nodes)
    (hr : ¬r < Real.exp (2 * ((nodes.getD n dflt).getE nodes : ℝ) / T)) :
    updateStep T nodes (n, r) = .ok nodes := by
  unfold updateStep
  rw [if_neg hE, if_neg hT, if_neg hr]

lemma updateStep_zeroT (nodes : List Node) (n : ℕ) (r : ℝ)
    (hE : ¬0 < (nodes.getD n dflt).getE nodes) :
    updateStep 0 nodes (n, r) = .error () := by
  unfold updateStep
  rw [if_neg hE, if_pos rfl]

lemma updateStep_ok (T : ℝ) (nodes : List Node) (tr : ℕ × ℝ) (hT : T ≠ 0) :
    ∃ out, updateStep T nodes tr = .ok out := by
  obtain ⟨n, r⟩ := tr
  by_cases hE : 0 < (nodes.getD n dflt).getE nodes
  · exact ⟨_, updateStep_pos T nodes n r hE⟩
  · by_cases hr : r < Real.exp (2 * ((nodes.getD n dflt).getE nodes : ℝ) / T)
    · exact ⟨_, updateStep_nonpos_accept T nodes n r hT hE hr⟩
    · exact ⟨_, updateStep_nonpos_reject T nodes n r hT hE hr⟩

lemma switchSpin_valid (nd : Node) (h : nd.spin = 1 ∨ nd.spin = -1) :
    nd.switchSpin.spin = 1 ∨ nd.switchSpin.spin = -1 := by
  have hs : nd.switchSpin.spin = -nd.spin := rfl
  rw [hs]
  rcases h with h1 | h1 <;> rw [h1]
  · right; norm_num
  · left; norm_num

lemma updateStep_valid (T : ℝ) (nodes out : List Node) (tr : ℕ × ℝ)
    (h : validSpins nodes) (hout : updateStep T nodes tr = .ok out) :
    validSpins out := by
  unfold updateStep at hout
  split at hout
  · cases hout
    exact validSpins_set _ _ _ h
      (switchSpin_valid _ (validSpins_getD nodes tr.1 h))
  · split at hout
    · cases hout
    · split at hout
      · cases hout
        exact validSpins_set _ _ _ h
          (switchSpin_valid _ (validSpins_getD nodes tr.1 h))
      · cases hout
        exact h

lemma update_ok (T : ℝ) (hT : T ≠ 0) :
    ∀ (trials : List (ℕ × ℝ)) (nodes : List Node),
      ∃ out, update T nodes trials = .ok out := by
  intro trials
  induction trials with
  | nil => intro nodes; exact ⟨nodes, rfl⟩
  | cons tr trs ih =>
    intro nodes
    obtain ⟨mid, hmid⟩ := updateStep_ok T nodes tr hT
    obtain ⟨out, hout⟩ := ih mid
    refine ⟨out, ?_⟩
    rw [update, List.foldlM_cons, hmid]
    exact hout

lemma update_valid (T : ℝ) :
    ∀ (trials : List (ℕ × ℝ)) (nodes out : List Node),
      validSpins nodes → update T nodes trials = .ok out → validSpins out := by
  intro trials
  induction trials with
  | nil =>
    intro nodes out h hout
    cases hout
    exact h
  | cons tr trs ih =>
    intro nodes out h hout
    rw [update, List.foldlM_cons] at hout
    cases hmid : updateStep T nodes tr with
    | error e => rw [hmid] at hout; cases hout
    | ok mid =>
      rw [hmid] at hout
      exact ih mid out (updateStep_valid T nodes mid tr h hmid) hout

lemma runSweeps_ok (T : ℝ) (hT : T ≠ 0) :
    ∀ (sl : List (List (ℕ × ℝ))) (nodes : List Node),
      ∃ out, runSweeps T nodes sl = .ok out := by
  intro sl
  induction sl with
  | nil => intro nodes; exact ⟨nodes, rfl⟩
  | cons s ss ih =>
    intro nodes
    obtain ⟨mid, hmid⟩ := update_ok T hT s nodes
    obtain ⟨out, hout⟩ := ih mid
    refine ⟨out, ?_⟩
    rw [runSweeps, List.foldlM_cons, hmid]
    exact hout

lemma runSweeps_valid (T : ℝ) :
    ∀ (sl : List (List (ℕ × ℝ))) (nodes out : List Node),
      validSpins nodes → runSweeps T nodes sl = .ok out → validSpins out := by
  intro sl
  induction sl with
  | nil =>
    intro nodes out h hout
    cases hout
    exact h
  | cons s ss ih =>
    intro nodes out h hout
    rw [runSweeps, List.foldlM_cons] at hout
    cases hmid : update T nodes s with
    | error e => rw [hmid] at hout; cases hout
    | ok mid =>
      rw [hmid] at hout
      exact ih mid out (update_valid T s nodes mid h hmid) hout

/-! ### Fold-to-sum lemmas for the energy formulas -/

lemma foldl_add_map {α : Type} (f : α → ℤ) :
    ∀ (l : List α) (a : ℤ),
      l.foldl (fun acc x => acc + f x) a = a + (l.map f).sum := by
  intro l
  induction l with
  | nil => intro a; simp
  | cons x xs ih =>
    intro a
    rw [List.foldl_cons, ih, List.map_cons, List.sum_cons]
    ring

lemma sum_map_const_add {α : Type} (c : ℤ) (g : α → ℤ) :
    ∀ l : List α,
      (l.map (fun x => c + g x)).sum = (l.length : ℤ) * c + (l.map g).sum := by
  intro l
  induction l with
  | nil => simp
  | cons x xs ih =>
    rw [List.map_cons, List.sum_cons, ih, List.map_cons, List.sum_cons,
      List.length_cons]
    push_cast
    ring

lemma totalE_eq_spec (model : Model) (nodes : List Node) :
    totalE model nodes = totalESpec model nodes := by
  rw [totalE, totalESpec]
  simp only [foldl_add_map]
  ring

/-! ### Rendering helpers -/

lemma modelSpin_length (nodes : List Node) :
    (modelSpin nodes).length = nodes.length := by
  simp [modelSpin]

lemma modelSpin_getD (nodes : List Node) (i : ℕ) (h : i < nodes.length) :
    (modelSpin nodes).getD i ' ' =
      if 0 < (nodes.getD i dflt).spin then '+' else '-' := by
  rw [modelSpin, List.getD_eq_getElem _ _ (by simpa using h),
    List.getElem_map, List.getElem_map, List.getD_eq_getElem _ _ h]

/-! ### Claim theorems -/

/-- Claim C10: for every node whose spin is `+1` or `-1`, `switchSpin` applied
twice returns the node to its original state (flip is an involution), and a
single `switchSpin` negates the spin. -/
theorem spec_flip_involution (nd : Node)
    (hspin : nd.spin = 1 ∨ nd.spin = -1) :
    nd.switchSpin.switchSpin = nd ∧ nd.switchSpin.spin = -nd.spin := by
  obtain ⟨s, hh, j⟩ := nd
  exact ⟨by simp [Node.switchSpin], rfl⟩

/-- Claim C10 witness: the involution at the concrete node `⟨1, 0, []⟩`. -/
theorem spec_flip_involution_witness :
    Node.switchSpin (Node.switchSpin ⟨1, 0, []⟩) = (⟨1, 0, []⟩ : Node) ∧
      (Node.switchSpin ⟨1, 0, []⟩).spin = -(⟨1, 0, []⟩ : Node).spin :=
  spec_flip_involution ⟨1, 0, []⟩ (Or.inl rfl)

/-- Claim C2: `getE` returns the negation of the sum, over the node's coupling
list, of `field*spin + weight*spin*neighbourSpin` (the spec's
`localEnergy` formula); equivalently, a node with `k` incident couplings
contributes its field term `k` times, not once. -/
theorem spec_local_energy (nd : Node) (nodes : List Node) :
    nd.getE nodes = localEnergySpec nd nodes ∧
    nd.getE nodes =
      -((nd.Jn.length : ℤ) * (nd.h * nd.spin) +
        (nd.Jn.map (fun i => i.2 * nd.spin * (nodes.getD i.1 dflt).spin)).sum) := by
  constructor
  · rw [Node.getE, localEnergySpec]
    simp only [foldl_add_map]
    ring
  · rw [Node.getE]
    simp only [foldl_add_map]
    rw [sum_map_const_add (nd.h * nd.spin)
      (fun i : ℕ × ℤ => i.2 * nd.spin * (nodes.getD i.1 dflt).spin) nd.Jn]
    ring

/-- Claim C9: `modelSpin` returns one symbol per node index in ascending order,
`'+'` exactly when that node's spin is positive and `'-'` otherwise, with
length `node_qty`; it is a pure read (a function of the node table). -/
theorem spec_render (q : ℕ) (ws : List (ℕ × ℕ × ℤ)) (init : ℕ → Bool) :
    (modelSpin (mkModel q ws init).nodes).length = q ∧
    (∀ c ∈ modelSpin (mkModel q ws init).nodes, c = '+' ∨ c = '-') ∧
    (∀ i, i < q →
      (modelSpin (mkModel q ws init).nodes).getD i ' ' =
        if 0 < ((mkModel q ws init).nodes.getD i dflt).spin then '+'
        else '-') := by
  refine ⟨?_, ?_, ?_⟩
  · rw [modelSpin_length, mkModel_length]
  · intro c hc
    rw [modelSpin] at hc
    rcases List.mem_map.mp hc with ⟨x, _, rfl⟩
    by_cases hx : 0 < x
    · left; simp [hx]
    · right; simp [hx]
  · intro i hi
    exact modelSpin_getD _ i (by rw [mkModel_length]; exact hi)

/-- Claim C9 witness: a one-node model renders as a single `'+'`. -/
theorem spec_render_witness :
    (modelSpin (mkModel 1 [] (fun _ => true)).nodes).length = 1 ∧
      (modelSpin (mkModel 1 [] (fun _ => true)).nodes).getD 0 ' ' = '+' := by
  obtain ⟨h1, _, h3⟩ := spec_render 1 [] (fun _ => true)
  refine ⟨h1, ?_⟩
  rw [h3 0 (by norm_num), mkModel_node 1 [] _ 0 (by norm_num)]
  simp

/-- Claim C7: constructing a model from a triple list containing the self-loop
`(n,n,w1)` and later `(n,n,w2)`, with no further self-loop on `n`
afterwards, leaves node `n`'s field equal to `w2`: the field is
overwritten, not accumulated. -/
theorem spec_field_overwrite (q n : ℕ) (w1 w2 : ℤ)
    (l1 l2 l3 : List (ℕ × ℕ × ℤ)) (init : ℕ → Bool) (hn : n < q)
    (h3 : ∀ t ∈ l3, ¬(t.1 = t.2.1 ∧ t.1 = n)) :
    ((mkModel q (l1 ++ ((n, n, w1) :: l2) ++ ((n, n, w2) :: l3))
        init).nodes.getD n dflt).h = w2 := by
  have h1 : ∀ cur : ℤ, fieldOf n cur ((n, n, w1) :: l2) = fieldOf n w1 l2 := by
    intro cur
    simp [fieldOf]
  have h2 : ∀ cur : ℤ, fieldOf n cur ((n, n, w2) :: l3) = w2 := by
    intro cur
    rw [show fieldOf n cur ((n, n, w2) :: l3) = fieldOf n w2 l3 from by
      simp [fieldOf]]
    exact fieldOf_of_no_self n l3 w2 h3
  rw [mkModel_node _ _ _ _ hn]
  show fieldOf n 0 (l1 ++ ((n, n, w1) :: l2) ++ ((n, n, w2) :: l3)) = w2
  rw [fieldOf_append, fieldOf_append, h1, h2]

/-- Claim C7 witness: two self-loops `(0,0,5)` then `(0,0,7)` leave field `7`. -/
theorem spec_field_overwrite_witness :
    ((mkModel 1 ([] ++ ((0, 0, 5) :: []) ++ ((0, 0, 7) :: []))
        (fun _ => true)).nodes.getD 0 dflt).h = 7 :=
  spec_field_overwrite 1 0 5 7 [] [] [] (fun _ => true) (by norm_num)
    (fun t ht => absurd ht (List.not_mem_nil t))

/-- Claim C6: after construction, every input triple `(a, b, w)` with `a ≠ b`
contributes `(b, w)` to node `a`'s coupling list, `(a, w)` to node `b`'s
coupling list, and `(a, b, w)` to the model's edge list; duplicate triples
are each appended — the edge list keeps every occurrence. -/
theorem spec_coupling_symmetry (q a b : ℕ) (w : ℤ)
    (ws : List (ℕ × ℕ × ℤ)) (init : ℕ → Bool) (ha : a < q) (hb : b < q)
    (hab : a ≠ b) (hmem : (a, b, w) ∈ ws) :
    (b, w) ∈ ((mkModel q ws init).nodes.getD a dflt).Jn ∧
    (a, w) ∈ ((mkModel q ws init).nodes.getD b dflt).Jn ∧
    (a, b, w) ∈ (mkModel q ws init).Js ∧
    (mkModel q ws init).Js.count (a, b, w) = ws.count (a, b, w) := by
  refine ⟨?_, ?_, ?_, ?_⟩
  · rw [mkModel_node _ _ _ _ ha]
    exact mem_jnOf_fst a b w ws hmem hab
  · rw [mkModel_node _ _ _ _ hb]
    exact mem_jnOf_snd a b w ws hmem hab
  · rw [mkModel_Js]
    exact List.mem_filter.mpr ⟨hmem, by simp [hab]⟩
  · rw [mkModel_Js]
    exact List.count_filter (by simp [hab])

/-- Claim C6 witness: the duplicated coupling `(0,1,3)` appears in both endpoint
coupling lists and twice in the edge list. -/
theorem spec_coupling_symmetry_witness :
    (1, 3) ∈ ((mkModel 2 [(0, 1, 3), (0, 1, 3)] (fun _ => true)).nodes.getD
        0 dflt).Jn ∧
      (mkModel 2 [(0, 1, 3), (0, 1, 3)] (fun _ => true)).Js.count (0, 1, 3) = 2 := by
  obtain ⟨h1, _, _, h4⟩ :=
    spec_coupling_symmetry 2 0 1 3 [(0, 1, 3), (0, 1, 3)] (fun _ => true)
      (by norm_num) (by norm_num) (by norm_num) (by simp)
  refine ⟨h1, ?_⟩
  rw [h4]
  decide

/-- Claim C1: in a trial of a sweep at temperature `T > 0` on sampled node `n`
with local energy `E = getE`: if `E > 0` the spin is flipped
unconditionally; if `E ≤ 0` it is flipped when the uniform draw `r`
satisfies `r < exp(2*E/T)` and left unchanged otherwise; in either case
the flip toggles only node `n`'s spin and every other node is unchanged. -/
theorem spec_acceptance_rule (nodes : List Node) (T : ℝ) (n : ℕ) (r : ℝ)
    (hT : 0 < T) (hn : n < nodes.length) :
    (0 < (nodes.getD n dflt).getE nodes →
      updateStep T nodes (n, r) =
        .ok (nodes.set n ((nodes.getD n dflt).switchSpin))) ∧
    ((nodes.getD n dflt).getE nodes ≤ 0 →
      r < Real.exp (2 * ((nodes.getD n dflt).getE nodes : ℝ) / T) →
      updateStep T nodes (n, r) =
        .ok (nodes.set n ((nodes.getD n dflt).switchSpin))) ∧
    ((nodes.getD n dflt).getE nodes ≤ 0 →
      ¬r < Real.exp (2 * ((nodes.getD n dflt).getE nodes : ℝ) / T) →
      updateStep T nodes (n, r) = .ok nodes) ∧
    ((nodes.set n ((nodes.getD n dflt).switchSpin)).getD n dflt).spin =
      -(nodes.getD n dflt).spin ∧
    (∀ m, m ≠ n →
      (nodes.set n ((nodes.getD n dflt).switchSpin)).getD m dflt =
        nodes.getD m dflt) := by
  refine ⟨?_, ?_, ?_, ?_, ?_⟩
  · exact updateStep_pos T nodes n r
  · intro hE hr
    exact updateStep_nonpos_accept T nodes n r (ne_of_gt hT)
      (not_lt.mpr hE) hr
  · intro hE hr
    exact updateStep_nonpos_reject T nodes n r (ne_of_gt hT)
      (not_lt.mpr hE) hr
  · rw [getD_set_self _ _ _ _ hn]
    rfl
  · intro m hm
    exact getD_set_ne _ _ _ _ _ (Ne.symm hm)

/-- Claim C1 witness: a single isolated node has `E = 0 ≤ 0` and the draw
`r = 0 < exp(0) = 1` accepts, so the trial flips the node. -/
theorem spec_acceptance_rule_witness :
    updateStep 1 [dflt] (0, 0) =
      .ok ([dflt].set 0 (([dflt].getD 0 dflt).switchSpin)) :=
  (spec_acceptance_rule [dflt] 1 0 0 (by norm_num) (by simp)).2.1
    (by decide) (Real.exp_pos _)

/-- Claim C5: every node's spin is exactly `+1` or `-1` after construction, and
this invariant is preserved through any sequence of sweeps (any trials,
any flips) that completes. -/
theorem spec_spin_invariant (q : ℕ) (ws : List (ℕ × ℕ × ℤ))
    (init : ℕ → Bool) (T : ℝ) (sl : List (List (ℕ × ℝ)))
    (final : List Node)
    (hrun : runSweeps T (mkModel q ws init).nodes sl = .ok final) :
    validSpins (mkModel q ws init).nodes ∧ validSpins final :=
  ⟨mkModel_valid q ws init,
    runSweeps_valid T sl _ final (mkModel_valid q ws init) hrun⟩

/-- Claim C5 witness: the invariant at a freshly built one-node model with an
empty sweep sequence. -/
theorem spec_spin_invariant_witness :
    validSpins (mkModel 1 [] (fun _ => true)).nodes ∧
      validSpins (mkModel 1 [] (fun _ => true)).nodes :=
  spec_spin_invariant 1 [] (fun _ => true) 1 [] _ rfl

/-- Claim C8: for the empty model (`node_qty = 0`, no triples) every sweep is a
no-op with zero trials (no error, no change), and `modelE` returns `0` for
every iteration count and temperature. -/
theorem spec_empty_model (T : ℝ) (sl : List (List (ℕ × ℝ)))
    (init : ℕ → Bool) (hsl : ∀ s ∈ sl, s = []) :
    runSweeps T (mkModel 0 [] init).nodes sl =
      .ok (mkModel 0 [] init).nodes ∧
    modelE (mkModel 0 [] init) (mkModel 0 [] init).nodes T sl = .ok 0 := by
  have hrun : ∀ sl2 : List (List (ℕ × ℝ)), (∀ s ∈ sl2, s = []) →
      ∀ ns : List Node, runSweeps T ns sl2 = .ok ns := by
    intro sl2
    induction sl2 with
    | nil => intro _ ns; rfl
    | cons s ss ih =>
      intro hs ns
      rw [runSweeps, List.foldlM_cons, hs s (List.mem_cons_self s ss)]
      show runSweeps T ns ss = .ok ns
      exact ih (fun u hu => hs u (List.mem_cons_of_mem s hu)) ns
  refine ⟨hrun sl hsl _, ?_⟩
  rw [modelE, hrun sl hsl]
  rfl

/-- Claim C8 witness: the empty model with two (empty) sweeps at `T = 2`. -/
theorem spec_empty_model_witness :
    runSweeps 2 (mkModel 0 [] (fun _ => true)).nodes [[], []] =
      .ok (mkModel 0 [] (fun _ => true)).nodes ∧
    modelE (mkModel 0 [] (fun _ => true))
      (mkModel 0 [] (fun _ => true)).nodes 2 [[], []] = .ok 0 :=
  spec_empty_model 2 [[], []] (fun _ => true) (by simp)

/-- Claim C3: for `T > 0` and `I = sl.length` sweeps, `modelE` runs exactly the
`I` sweeps in sequence (never erroring) and returns the negation of the
edge sum plus field sum evaluated on the final spins, as an integer. -/
theorem spec_modelE_run (model : Model) (nodes : List Node) (T : ℝ)
    (I : ℕ) (sl : List (List (ℕ × ℝ))) (hT : 0 < T) (_hI : sl.length = I) :
    ∃ final, runSweeps T nodes sl = .ok final ∧
      modelE model nodes T sl = .ok (totalESpec model final) := by
  obtain ⟨final, hfin⟩ := runSweeps_ok T (ne_of_gt hT) sl nodes
  refine ⟨final, hfin, ?_⟩
  rw [modelE, hfin]
  show Except.ok (totalE model final) = Except.ok (totalESpec model final)
  rw [totalE_eq_spec]

/-- Claim C3 witness: a two-node model with one coupling `(0,1,3)`, zero sweeps:
the energy is `-(1*1*3) = -3`. -/
theorem spec_modelE_run_witness :
    modelE (mkModel 2 [(0, 1, 3)] (fun _ => true))
      (mkModel 2 [(0, 1, 3)] (fun _ => true)).nodes 1 [] = .ok (-3) := by
  obtain ⟨final, h1, h2⟩ :=
    spec_modelE_run (mkModel 2 [(0, 1, 3)] (fun _ => true))
      (mkModel 2 [(0, 1, 3)] (fun _ => true)).nodes 1 0 [] one_pos rfl
  have hf : final = (mkModel 2 [(0, 1, 3)] (fun _ => true)).nodes := by
    have h0 : (Except.ok ((mkModel 2 [(0, 1, 3)] (fun _ => true)).nodes) :
        Except Unit (List Node)) = .ok final := by rw [← h1]; rfl
    exact (Except.ok.inj h0).symm
  rw [h2, hf]
  have hval : totalESpec (mkModel 2 [(0, 1, 3)] (fun _ => true))
      (mkModel 2 [(0, 1, 3)] (fun _ => true)).nodes = -3 := by decide
  rw [hval]

/-- Claim C4 (amended): at `T = 0` a sweep whose first trial samples a node with
local energy `≤ 0` reports a computation error (the division by zero in
`exp(2*E/T)`), and `modelE` propagates it — no silent result.  (For
`T < 0` no error occurs: see the counterexample theorem.) -/
theorem zero_temperature_error (model : Model) (nodes : List Node)
    (tr : ℕ × ℝ) (trs : List (ℕ × ℝ)) (rest : List (List (ℕ × ℝ)))
    (hE : (nodes.getD tr.1 dflt).getE nodes ≤ 0) :
    update 0 nodes (tr :: trs) = .error () ∧
    modelE model nodes 0 ((tr :: trs) :: rest) = .error () := by
  have hstep : updateStep 0 nodes tr = .error () :=
    updateStep_zeroT nodes tr.1 tr.2 (not_lt.mpr hE)
  have hup : update 0 nodes (tr :: trs) = .error () := by
    rw [update, List.foldlM_cons, hstep]
    rfl
  refine ⟨hup, ?_⟩
  rw [modelE, runSweeps, List.foldlM_cons, hup]
  rfl

/-- Claim C4 witness: one isolated node (local energy `0 ≤ 0`), `T = 0`: both the
sweep and the full run report the error. -/
theorem zero_temperature_error_witness :
    update 0 [dflt] [(0, 0)] = .error () ∧
    modelE (mkModel 1 [] (fun _ => true)) [dflt] 0 [[(0, 0)]] = .error () :=
  zero_temperature_error (mkModel 1 [] (fun _ => true)) [dflt] (0, 0) [] []
    (by decide)

/-- Claim C4 counterexample: at the negative temperature `T = -1` the claim
fails — the first sweep of a one-node model completes without any error
and the run silently produces energy `0` (for `E ≤ 0` and `T < 0`,
`2*E/T ≥ 0`, so `exp(2*E/T) ≥ 1` and the draw always accepts). -/
theorem negative_temperature_no_error :
    modelE (mkModel 1 [] (fun _ => true))
      (mkModel 1 [] (fun _ => true)).nodes (-1) [[(0, 0)]] = .ok 0 := by
  have hstep : updateStep (-1) (mkModel 1 [] (fun _ => true)).nodes (0, 0) =
      .ok ((mkModel 1 [] (fun _ => true)).nodes.set 0
        (((mkModel 1 [] (fun _ => true)).nodes.getD 0 dflt).switchSpin)) :=
    updateStep_nonpos_accept (-1) _ 0 0 (by norm_num) (by decide)
      (Real.exp_pos _)
  rw [modelE, runSweeps, List.foldlM_cons, update, List.foldlM_cons, hstep]
  rfl

end SpinPy
